import Mathlib

/-!
Shallow embedding of the signal-processing pipeline of the
heart-rate-monitor repository (the monitor module and main.js).

JS numbers are modelled as rationals.  Where the JS code can produce a
non-finite number (NaN or Infinity, always via a division whose divisor
is zero in the cases reachable here), the value is modelled as
Option ℚ with none standing for the non-finite result.  Where a JS
function can throw (reduce of an empty array with no initial value) the
embedding returns Except.  Where a JS function can return undefined
(calculateBpm on fewer than two crossings) the embedding returns Option.
-/

set_option maxRecDepth 4000

namespace HeartRateMonitor

/-- A sample pushed by processFrame: a brightness value and a timestamp
in milliseconds. -/
structure Sample where
  value : ℚ
  time : ℚ
deriving DecidableEq, Repr

/-- MAX_SAMPLES = 60 * 5, the capacity of SAMPLE_BUFFER. -/
def MAX_SAMPLES : ℕ := 60 * 5

/-- JS division that records a non-finite result: dividing by zero in JS
yields NaN or Infinity, modelled as none. -/
def jsDiv (a b : ℚ) : Option ℚ :=
  if b = 0 then none else some (a / b)

/-- The summation loop of averageBrightness: for i = 0, 4, 8, ... add
pixelData at i and i+1 (the red and green channels).  A trailing chunk
shorter than four entries would make JS read out of bounds and poison the
sum with NaN, modelled as none. -/
def sumRG : List ℚ → Option ℚ
  | [] => some 0
  | r :: g :: _b :: _a :: rest => (sumRG rest).map (fun s => r + g + s)
  | _ => none

/-- averageBrightness from the monitor module: sum the red and green
channels, divide by pixelData.length * 0.5, then scale by 255. -/
def averageBrightness (pixelData : List ℚ) : Option ℚ :=
  (sumRG pixelData).bind fun sum =>
    (jsDiv sum ((pixelData.length : ℚ) * (1 / 2))).map fun avg => avg / 255

/-- One buffer step of processFrame: SAMPLE_BUFFER.push(sample) followed by
SAMPLE_BUFFER.shift() when the length exceeds MAX_SAMPLES. -/
def bufferPush (buf : List Sample) (s : Sample) : List Sample :=
  let b := buf ++ [s]
  if MAX_SAMPLES < b.length then b.tail else b

/-- resetBuffer: SAMPLE_BUFFER.length = 0. -/
def resetBuffer (_buf : List Sample) : List Sample := []

/-- The forEach body of getAverageCrossings, carrying previousSample. -/
def gacLoop (average : ℚ) : Sample → List Sample → List Sample
  | _, [] => []
  | prev, cur :: rest =>
      if cur.value < average ∧ prev.value > average then
        cur :: gacLoop average cur rest
      else
        gacLoop average cur rest

/-- getAverageCrossings: previousSample starts at samples[0] and the loop
visits every sample, including samples[0] itself. -/
def getAverageCrossings (samples : List Sample) (average : ℚ) : List Sample :=
  match samples with
  | [] => []
  | s0 :: _ => gacLoop average s0 samples

/-- The record returned by analyzeData. -/
structure AnalysisResult where
  average : ℚ
  min : ℚ
  max : ℚ
  range : ℚ
  crossings : List Sample
deriving DecidableEq, Repr

/-- analyzeData.  On an empty buffer the JS reduce with no initial value
throws a TypeError, modelled as Except.error.  On a nonempty buffer:
average is the mean of the values, min and max are folds over the whole
list starting from samples[0].value, range = max - min, and crossings
comes from getAverageCrossings. -/
def analyzeData (samples : List Sample) : Except String AnalysisResult :=
  match samples with
  | [] => Except.error "Reduce of empty array with no initial value"
  | s0 :: rest =>
      let average :=
        ((rest.map Sample.value).foldl (· + ·) s0.value) /
          ((s0 :: rest).length : ℚ)
      let mn := (s0 :: rest).foldl
        (fun m s => if s.value < m then s.value else m) s0.value
      let mx := (s0 :: rest).foldl
        (fun m s => if m < s.value then s.value else m) s0.value
      let range := mx - mn
      let crossings := getAverageCrossings (s0 :: rest) average
      Except.ok ⟨average, mn, mx, range, crossings⟩

/-- calculateBpm.  Fewer than two crossings: JS returns undefined (outer
none).  Otherwise 60000 divided by the average interval; with a zero
interval the JS division yields Infinity, modelled as some none. -/
def calculateBpm (samples : List Sample) : Option (Option ℚ) :=
  if samples.length < 2 then none
  else
    let averageInterval :=
      ((samples.getD (samples.length - 1) ⟨0, 0⟩).time -
          (samples.getD 0 ⟨0, 0⟩).time) /
        ((samples.length : ℚ) - 1)
    some (jsDiv 60000 averageInterval)

/-- A point handed to ctx.lineTo by drawGraph.  The y coordinate is an
Option: none records a non-finite (NaN) JS number. -/
structure Point where
  x : ℚ
  y : Option ℚ
deriving DecidableEq, Repr

/-- The JS != test used by drawGraph on y values: NaN compares unequal to
everything, including itself. -/
def jsNe : Option ℚ → Option ℚ → Bool
  | none, _ => true
  | some _, none => true
  | some a, some b => decide (a ≠ b)

/-- The y computed by drawGraph for one sample: y starts at lineWidth and
is overwritten with the scaled value whenever sample.value is not 0.
Division by max - min = 0 makes the whole expression non-finite. -/
def yValue (mn mx maxHeight lineWidth : ℚ) (s : Sample) : Option ℚ :=
  if s.value = 0 then some lineWidth
  else (jsDiv (maxHeight * (s.value - mn)) (mx - mn)).map (· + lineWidth)

/-- The forEach body of drawGraph: carries the index i and previousY, and
emits a point only when y != previousY in the JS sense. -/
def drawLoop (xScaling xOffset mn mx maxHeight lineWidth : ℚ) :
    List Sample → ℕ → Option ℚ → List Point
  | [], _, _ => []
  | s :: rest, i, prevY =>
      if jsNe (yValue mn mx maxHeight lineWidth s) prevY then
        ⟨xScaling * (i : ℚ) + xOffset, yValue mn mx maxHeight lineWidth s⟩ ::
          drawLoop xScaling xOffset mn mx maxHeight lineWidth rest (i + 1)
            (yValue mn mx maxHeight lineWidth s)
      else
        drawLoop xScaling xOffset mn mx maxHeight lineWidth rest (i + 1)
          (yValue mn mx maxHeight lineWidth s)

/-- drawGraph reduced to the geometry it emits: the sequence of points fed
to ctx.lineTo, as a function of the buffer, the analysis stats and the
surface dimensions. -/
def drawGraphPoints (samples : List Sample) (stats : AnalysisResult)
    (width height lineWidth : ℚ) : List Point :=
  let xScaling := width / (MAX_SAMPLES : ℚ)
  let xOffset := ((MAX_SAMPLES : ℚ) - (samples.length : ℚ)) * xScaling
  let maxHeight := height - lineWidth * 2
  drawLoop xScaling xOffset stats.min stats.max maxHeight lineWidth samples 0 (some 0)

/-- The full indexed point sequence drawGraph computes, before the
skip-equal-y de-duplication. -/
def allPoints (xScaling xOffset mn mx maxHeight lineWidth : ℚ) :
    List Sample → ℕ → List Point
  | [], _ => []
  | s :: rest, i =>
      ⟨xScaling * (i : ℚ) + xOffset, yValue mn mx maxHeight lineWidth s⟩ ::
        allPoints xScaling xOffset mn mx maxHeight lineWidth rest (i + 1)

/-- The previousY register of drawGraph after scanning a list, starting
from a given value: the y of the last scanned sample, or the start value
when nothing was scanned. -/
def lastPrevY (mn mx maxHeight lineWidth : ℚ) (l : List Sample)
    (prev : Option ℚ) : Option ℚ :=
  match l.getLast? with
  | none => prev
  | some t => yValue mn mx maxHeight lineWidth t

/-- A concrete full buffer whose last two samples coincide: 298 samples
of value 0 followed by two samples of value 1. -/
def cexBuffer : List Sample :=
  List.replicate 298 ⟨0, 0⟩ ++ [⟨1, 0⟩, ⟨1, 0⟩]

/-- The xOffset drawGraph computes for cexBuffer on a 300-wide surface. -/
def cexXO : ℚ :=
  ((MAX_SAMPLES : ℚ) - (cexBuffer.length : ℚ)) * (300 / (MAX_SAMPLES : ℚ))

/-!  Specification-side definitions, written from the wording of the spec,
to be compared with the code-side definitions above. -/

/-- Spec-side crossing list: those samples at positions i >= 1 whose
predecessor is strictly above the average while they are strictly below
it, in chronological order.  Expressed through the list of consecutive
(previous, current) pairs. -/
def crossingsSpec (samples : List Sample) (average : ℚ) : List Sample :=
  ((samples.zip samples.tail).filter
      (fun p => decide (average < p.1.value) && decide (p.2.value < average))).map
    Prod.snd

/-- Spec-side view of a pixel: four channels. -/
structure Pixel where
  r : ℚ
  g : ℚ
  b : ℚ
  a : ℚ
deriving DecidableEq, Repr

/-- The flat RGBA data array of a list of pixels. -/
def flattenPixels (ps : List Pixel) : List ℚ :=
  ps.flatMap fun p => [p.r, p.g, p.b, p.a]

/-- Spec-side sum of the red and green channel intensities of every
pixel. -/
def rgSum (ps : List Pixel) : ℚ :=
  (ps.map fun p => p.r + p.g).sum

/-!  C1: the crossing list. -/

/-- The loop of getAverageCrossings filters the consecutive pairs of the
list prev :: l. -/
lemma gacLoop_eq_zip (average : ℚ) (l : List Sample) (prev : Sample) :
    gacLoop average prev l =
      (((prev :: l).zip l).filter
          (fun p => decide (average < p.1.value) && decide (p.2.value < average))).map
        Prod.snd := by
  induction l generalizing prev with
  | nil => rfl
  | cons c rest ih =>
      rw [gacLoop]
      by_cases h : c.value < average ∧ prev.value > average
      · have hb : (decide (average < prev.value) && decide (c.value < average)) = true := by
          simp [h.1, h.2]
        rw [if_pos h, ih c]
        simp [List.filter_cons, hb]
      · have hb : (decide (average < prev.value) && decide (c.value < average)) = false := by
          by_contra hc
          simp only [Bool.not_eq_false, Bool.and_eq_true, decide_eq_true_eq] at hc
          exact h ⟨hc.2, hc.1⟩
        rw [if_neg h, ih c]
        simp [List.filter_cons, hb]

/-- C1: for every ordered sample sequence of length at least 1, the
crossing list of the Signal Analyzer contains exactly the samples at
positions i >= 1, in chronological order, whose predecessor is strictly
above the average while they are strictly below it; in particular a
1-sample sequence has no crossings. -/
theorem crossings_match_spec (samples : List Sample) (average : ℚ)
    (h : samples ≠ []) :
    getAverageCrossings samples average = crossingsSpec samples average ∧
      (samples.length = 1 → getAverageCrossings samples average = []) := by
  obtain ⟨s0, rest, rfl⟩ := List.exists_cons_of_ne_nil h
  have hmain : getAverageCrossings (s0 :: rest) average =
      crossingsSpec (s0 :: rest) average := by
    show gacLoop average s0 (s0 :: rest) = _
    rw [gacLoop_eq_zip]
    simp only [List.zip_cons_cons, List.filter_cons]
    have hb : (decide (average < s0.value) && decide (s0.value < average)) = false := by
      by_contra hc
      simp only [Bool.not_eq_false, Bool.and_eq_true, decide_eq_true_eq] at hc
      exact absurd hc.2 (not_lt_of_gt hc.1)
    rw [hb]
    rfl
  refine ⟨hmain, fun hlen => ?_⟩
  have : rest = [] := by
    simpa using List.length_eq_zero.mp (by simpa using hlen)
  subst this
  rw [hmain]
  simp [crossingsSpec]

/-- Witness for C1 at a concrete two-sample input. -/
theorem crossings_match_spec_witness :
    getAverageCrossings [⟨3, 0⟩, ⟨1, 1⟩] 2 = crossingsSpec [⟨3, 0⟩, ⟨1, 1⟩] 2 ∧
      (([⟨3, 0⟩, ⟨1, 1⟩] : List Sample).length = 1 →
        getAverageCrossings [⟨3, 0⟩, ⟨1, 1⟩] 2 = []) :=
  crossings_match_spec [⟨3, 0⟩, ⟨1, 1⟩] 2 (by simp)

/-!  C2 and C10: the BPM estimator. -/

/-- samples[0] is the head of a nonempty list. -/
lemma getD_zero_eq_head (l : List Sample) (h : l ≠ []) :
    l.getD 0 ⟨0, 0⟩ = l.head h := by
  cases l with
  | nil => exact absurd rfl h
  | cons a t => rfl

/-- samples[samples.length - 1] is the last element of a nonempty list. -/
lemma getD_pred_length_eq_getLast (l : List Sample) (h : l ≠ []) :
    l.getD (l.length - 1) ⟨0, 0⟩ = l.getLast h := by
  rw [List.getD_eq_getElem?_getD, List.getLast_eq_getElem,
    List.getElem?_eq_getElem (by cases l with
      | nil => exact absurd rfl h
      | cons a t => simp)]
  rfl

/-- On a list with at least two elements, calculateBpm divides 60000 by
the mean interval between the first and last timestamps. -/
lemma calculateBpm_eq_of_two_le (samples : List Sample) (h : samples ≠ [])
    (h2 : 2 ≤ samples.length) :
    calculateBpm samples =
      some (jsDiv 60000
        (((samples.getLast h).time - (samples.head h).time) /
          ((samples.length : ℚ) - 1))) := by
  unfold calculateBpm
  rw [if_neg (by omega), getD_pred_length_eq_getLast samples h,
    getD_zero_eq_head samples h]

/-- C2: fewer than two crossings produce no estimate; otherwise the
estimate is 60000 divided by the mean interval
(last.time - first.time) / (n - 1) across the whole crossing list. -/
theorem calculateBpm_spec (samples : List Sample) :
    (samples.length < 2 → calculateBpm samples = none) ∧
      (∀ h : samples ≠ [], 2 ≤ samples.length →
        calculateBpm samples =
          some (jsDiv 60000
            (((samples.getLast h).time - (samples.head h).time) /
              ((samples.length : ℚ) - 1)))) := by
  constructor
  · intro hlt
    unfold calculateBpm
    rw [if_pos hlt]
  · intro h h2
    exact calculateBpm_eq_of_two_le samples h h2

/-- Witness for C2 at a concrete two-crossing input, one second apart. -/
theorem calculateBpm_spec_witness :
    calculateBpm [⟨0, 0⟩, ⟨0, 1000⟩] = some (some 60) := by
  have h := (calculateBpm_spec [⟨0, 0⟩, ⟨0, 1000⟩]).2 (by simp) (by simp)
  rw [h]
  norm_num [jsDiv, List.getLast, List.head]

/-- C10: calculateBpm has no guard on the crossing time span.  With at
least two crossings whose first and last timestamps coincide, the mean
interval is 0 and the unguarded division produces a non-finite value;
a finite BPM exists exactly under the precondition that the last
timestamp exceeds the first, which makes the zero divisor unreachable. -/
theorem calculateBpm_zero_span (samples : List Sample) (h : samples ≠ [])
    (h2 : 2 ≤ samples.length) :
    ((samples.getLast h).time = (samples.head h).time →
        calculateBpm samples = some none) ∧
      ((samples.head h).time < (samples.getLast h).time →
        calculateBpm samples =
          some (some (60000 /
            (((samples.getLast h).time - (samples.head h).time) /
              ((samples.length : ℚ) - 1))))) := by
  constructor
  · intro heq
    rw [calculateBpm_eq_of_two_le samples h h2, heq]
    simp [jsDiv]
  · intro hlt
    have hden : (0 : ℚ) < (samples.length : ℚ) - 1 := by
      have : (2 : ℚ) ≤ (samples.length : ℚ) := by exact_mod_cast h2
      linarith
    have hint : (0 : ℚ) <
        ((samples.getLast h).time - (samples.head h).time) /
          ((samples.length : ℚ) - 1) :=
      div_pos (by linarith) hden
    rw [calculateBpm_eq_of_two_le samples h h2]
    simp [jsDiv, ne_of_gt hint]

/-- Witness for C10: equal timestamps give a non-finite value, distinct
increasing timestamps give a finite one. -/
theorem calculateBpm_zero_span_witness :
    calculateBpm [⟨0, 5⟩, ⟨0, 5⟩] = some none ∧
      calculateBpm [⟨0, 0⟩, ⟨0, 2000⟩] = some (some 30) := by
  constructor
  · exact (calculateBpm_zero_span [⟨0, 5⟩, ⟨0, 5⟩] (by simp) (by simp)).1 (by decide)
  · have h :=
      (calculateBpm_zero_span [⟨0, 0⟩, ⟨0, 2000⟩] (by simp) (by simp)).2 (by decide)
    rw [h]
    norm_num [List.getLast, List.head]

/-!  C3 and C9: the sample buffer. -/

/-- One push on a buffer within capacity drops the front exactly when the
appended list would exceed MAX_SAMPLES. -/
lemma bufferPush_eq (buf : List Sample) (s : Sample)
    (hle : buf.length ≤ MAX_SAMPLES) :
    bufferPush buf s = (buf ++ [s]).drop (buf.length + 1 - MAX_SAMPLES) := by
  unfold bufferPush
  by_cases hfull : MAX_SAMPLES < (buf ++ [s]).length
  · rw [if_pos hfull]
    have : buf.length + 1 - MAX_SAMPLES = 1 := by
      simp only [List.length_append, List.length_singleton] at hfull
      omega
    rw [this, ← List.drop_one]
  · rw [if_neg hfull]
    have : buf.length + 1 - MAX_SAMPLES = 0 := by
      simp only [List.length_append, List.length_singleton] at hfull
      omega
    rw [this, List.drop_zero]

/-- A push never leaves the buffer above capacity. -/
lemma bufferPush_length_le (buf : List Sample) (s : Sample)
    (hle : buf.length ≤ MAX_SAMPLES) :
    (bufferPush buf s).length ≤ MAX_SAMPLES := by
  rw [bufferPush_eq buf s hle]
  simp only [List.length_drop, List.length_append, List.length_singleton]
  omega

/-- Folding pushes over a buffer within capacity keeps exactly the last
MAX_SAMPLES elements of the concatenation, in order. -/
lemma foldl_bufferPush_eq (xs : List Sample) :
    ∀ buf : List Sample, buf.length ≤ MAX_SAMPLES →
      List.foldl bufferPush buf xs =
        (buf ++ xs).drop (buf.length + xs.length - MAX_SAMPLES) := by
  induction xs with
  | nil =>
      intro buf hle
      simp only [List.foldl_nil, List.append_nil, List.length_nil, Nat.add_zero]
      rw [Nat.sub_eq_zero_of_le hle, List.drop_zero]
  | cons s rest ih =>
      intro buf hle
      rw [List.foldl_cons, ih (bufferPush buf s) (bufferPush_length_le buf s hle),
        bufferPush_eq buf s hle]
      have hdle : buf.length + 1 - MAX_SAMPLES ≤ (buf ++ [s]).length := by
        simp only [List.length_append, List.length_singleton]
        omega
      have hlen : ((buf ++ [s]).drop (buf.length + 1 - MAX_SAMPLES)).length =
          buf.length + 1 - (buf.length + 1 - MAX_SAMPLES) := by
        simp only [List.length_drop, List.length_append, List.length_singleton]
      rw [hlen, ← List.drop_append_of_le_length hdle, List.drop_drop]
      have harith :
          buf.length + 1 - MAX_SAMPLES +
              (buf.length + 1 - (buf.length + 1 - MAX_SAMPLES) + rest.length -
                MAX_SAMPLES) =
            buf.length + (s :: rest).length - MAX_SAMPLES := by
        simp only [List.length_cons]
        omega
      rw [harith]
      simp only [List.append_assoc, List.singleton_append]

/-- C3: pushing MAX_SAMPLES + k samples (k >= 1) into a freshly reset
buffer leaves exactly MAX_SAMPLES elements, namely the most recent
MAX_SAMPLES pushed samples in their original chronological order. -/
theorem buffer_sliding_window (k : ℕ) (xs : List Sample) (hk : 1 ≤ k)
    (hlen : xs.length = MAX_SAMPLES + k) :
    List.foldl bufferPush (resetBuffer []) xs = xs.drop k ∧
      (List.foldl bufferPush (resetBuffer []) xs).length = MAX_SAMPLES := by
  have hmain : List.foldl bufferPush (resetBuffer []) xs = xs.drop k := by
    rw [show resetBuffer [] = [] from rfl,
      foldl_bufferPush_eq xs [] (by simp [MAX_SAMPLES])]
    simp only [List.nil_append, List.length_nil, Nat.zero_add]
    rw [hlen]
    have : MAX_SAMPLES + k - MAX_SAMPLES = k := by omega
    rw [this]
  refine ⟨hmain, ?_⟩
  rw [hmain]
  simp only [List.length_drop, hlen]
  omega

/-- Witness for C3: MAX_SAMPLES + 1 identical pushes keep the last
MAX_SAMPLES of them. -/
theorem buffer_sliding_window_witness :
    List.foldl bufferPush (resetBuffer [])
        (List.replicate (MAX_SAMPLES + 1) (⟨0, 0⟩ : Sample)) =
      (List.replicate (MAX_SAMPLES + 1) (⟨0, 0⟩ : Sample)).drop 1 ∧
      (List.foldl bufferPush (resetBuffer [])
          (List.replicate (MAX_SAMPLES + 1) (⟨0, 0⟩ : Sample))).length =
        MAX_SAMPLES :=
  buffer_sliding_window 1 (List.replicate (MAX_SAMPLES + 1) ⟨0, 0⟩)
    (le_refl 1) (List.length_replicate _ _)

/-- C9: resetting, pushing any sequence, and resetting again yields the
empty buffer, indistinguishable from a freshly constructed one. -/
theorem buffer_reset_round_trip (buf : List Sample) (xs : List Sample) :
    resetBuffer (List.foldl bufferPush (resetBuffer buf) xs) = ([] : List Sample) :=
  rfl

/-!  C6 and C7: analyzeData. -/

/-- The value of analyzeData on a nonempty list, spelled out. -/
lemma analyzeData_cons (s0 : Sample) (rest : List Sample) :
    analyzeData (s0 :: rest) = Except.ok
      { average := ((rest.map Sample.value).foldl (· + ·) s0.value) /
          (((s0 :: rest).length : ℚ))
        min := (s0 :: rest).foldl
          (fun m s => if s.value < m then s.value else m) s0.value
        max := (s0 :: rest).foldl
          (fun m s => if m < s.value then s.value else m) s0.value
        range := (s0 :: rest).foldl
            (fun m s => if m < s.value then s.value else m) s0.value -
          (s0 :: rest).foldl
            (fun m s => if s.value < m then s.value else m) s0.value
        crossings := getAverageCrossings (s0 :: rest)
          (((rest.map Sample.value).foldl (· + ·) s0.value) /
            (((s0 :: rest).length : ℚ))) } := rfl

/-- Folding addition from an initial value sums the list. -/
lemma foldl_add_eq (l : List ℚ) (a : ℚ) : l.foldl (· + ·) a = a + l.sum := by
  induction l generalizing a with
  | nil => simp
  | cons x xs ih =>
      simp only [List.foldl_cons, ih, List.sum_cons]
      ring

/-- The min fold of analyzeData is bounded by its seed and by every
element. -/
lemma foldl_min_le (l : List Sample) (a : ℚ) :
    l.foldl (fun m s => if s.value < m then s.value else m) a ≤ a ∧
      ∀ s ∈ l,
        l.foldl (fun m s => if s.value < m then s.value else m) a ≤ s.value := by
  induction l generalizing a with
  | nil => simp
  | cons x xs ih =>
      simp only [List.foldl_cons]
      have hba : (if x.value < a then x.value else a) ≤ a := by
        split
        · exact le_of_lt (by assumption)
        · exact le_refl a
      have hbx : (if x.value < a then x.value else a) ≤ x.value := by
        split
        · exact le_refl _
        · exact le_of_not_lt (by assumption)
      obtain ⟨h1, h2⟩ := ih (if x.value < a then x.value else a)
      refine ⟨h1.trans hba, ?_⟩
      intro s hs
      rcases List.mem_cons.mp hs with rfl | hs2
      · exact h1.trans hbx
      · exact h2 s hs2

/-- The max fold of analyzeData dominates its seed and every element. -/
lemma le_foldl_max (l : List Sample) (a : ℚ) :
    a ≤ l.foldl (fun m s => if m < s.value then s.value else m) a ∧
      ∀ s ∈ l,
        s.value ≤ l.foldl (fun m s => if m < s.value then s.value else m) a := by
  induction l generalizing a with
  | nil => simp
  | cons x xs ih =>
      simp only [List.foldl_cons]
      have hba : a ≤ (if a < x.value then x.value else a) := by
        split
        · exact le_of_lt (by assumption)
        · exact le_refl a
      have hbx : x.value ≤ (if a < x.value then x.value else a) := by
        split
        · exact le_refl _
        · exact le_of_not_lt (by assumption)
      obtain ⟨h1, h2⟩ := ih (if a < x.value then x.value else a)
      refine ⟨hba.trans h1, ?_⟩
      intro s hs
      rcases List.mem_cons.mp hs with rfl | hs2
      · exact hbx.trans h1
      · exact h2 s hs2

/-- A uniform lower bound on a list bounds its sum from below. -/
lemma length_mul_le_sum (l : List ℚ) (c : ℚ) (h : ∀ x ∈ l, c ≤ x) :
    c * (l.length : ℚ) ≤ l.sum := by
  induction l with
  | nil => simp
  | cons x xs ih =>
      simp only [List.sum_cons, List.length_cons]
      have hx := h x (List.mem_cons_self x xs)
      have hxs := ih fun y hy => h y (List.mem_cons_of_mem x hy)
      push_cast
      nlinarith [hxs, hx]

/-- A uniform upper bound on a list bounds its sum from above. -/
lemma sum_le_length_mul (l : List ℚ) (c : ℚ) (h : ∀ x ∈ l, x ≤ c) :
    l.sum ≤ c * (l.length : ℚ) := by
  induction l with
  | nil => simp
  | cons x xs ih =>
      simp only [List.sum_cons, List.length_cons]
      have hx := h x (List.mem_cons_self x xs)
      have hxs := ih fun y hy => h y (List.mem_cons_of_mem x hy)
      push_cast
      nlinarith [hxs, hx]

/-- C7: on every nonempty buffer the Analysis Result satisfies
min <= average <= max, range = max - min and range >= 0. -/
theorem stats_bounds (samples : List Sample) (r : AnalysisResult)
    (hr : analyzeData samples = Except.ok r) :
    r.min ≤ r.average ∧ r.average ≤ r.max ∧ r.range = r.max - r.min ∧
      0 ≤ r.range := by
  cases samples with
  | nil => exact Except.noConfusion hr
  | cons s0 rest =>
      rw [analyzeData_cons] at hr
      injection hr with hr
      subst hr
      simp only
      have hnpos : (0 : ℚ) < ((s0 :: rest).length : ℚ) := by
        have : 0 < (s0 :: rest).length := by simp
        exact_mod_cast this
      obtain ⟨hmin_init, hmin_mem⟩ := foldl_min_le (s0 :: rest) s0.value
      obtain ⟨hmax_init, hmax_mem⟩ := le_foldl_max (s0 :: rest) s0.value
      have hsum : (rest.map Sample.value).foldl (· + ·) s0.value =
          ((s0 :: rest).map Sample.value).sum := by
        rw [foldl_add_eq]
        simp
      have hminavg : (s0 :: rest).foldl
            (fun m s => if s.value < m then s.value else m) s0.value ≤
          ((rest.map Sample.value).foldl (· + ·) s0.value) /
            (((s0 :: rest).length : ℚ)) := by
        rw [le_div_iff₀ hnpos, hsum]
        have := length_mul_le_sum ((s0 :: rest).map Sample.value)
          ((s0 :: rest).foldl (fun m s => if s.value < m then s.value else m)
            s0.value)
          (by
            intro x hx
            obtain ⟨s, hs, rfl⟩ := List.mem_map.mp hx
            exact hmin_mem s hs)
        simpa using this
      have havgmax : ((rest.map Sample.value).foldl (· + ·) s0.value) /
            (((s0 :: rest).length : ℚ)) ≤
          (s0 :: rest).foldl
            (fun m s => if m < s.value then s.value else m) s0.value := by
        rw [div_le_iff₀ hnpos, hsum]
        have := sum_le_length_mul ((s0 :: rest).map Sample.value)
          ((s0 :: rest).foldl (fun m s => if m < s.value then s.value else m)
            s0.value)
          (by
            intro x hx
            obtain ⟨s, hs, rfl⟩ := List.mem_map.mp hx
            exact hmax_mem s hs)
        simpa using this
      refine ⟨hminavg, havgmax, trivial, ?_⟩
      have hmm : (s0 :: rest).foldl
            (fun m s => if s.value < m then s.value else m) s0.value ≤
          (s0 :: rest).foldl
            (fun m s => if m < s.value then s.value else m) s0.value :=
        hmin_init.trans hmax_init
      linarith

/-- analyzeData evaluated on a concrete two-sample buffer. -/
lemma analyzeData_example :
    analyzeData [⟨1, 0⟩, ⟨3, 1⟩] = Except.ok ⟨2, 1, 3, 2, []⟩ := by
  have havg : (([⟨3, 1⟩] : List Sample).map Sample.value).foldl (· + ·)
        ((⟨1, 0⟩ : Sample)).value /
        ((([⟨1, 0⟩, ⟨3, 1⟩] : List Sample).length : ℚ)) = 2 := by
    norm_num [List.foldl]
  rw [analyzeData_cons, havg]
  simp only [Except.ok.injEq, AnalysisResult.mk.injEq]
  norm_num [List.foldl, getAverageCrossings, gacLoop]

/-- Witness for C7 at a concrete two-sample buffer. -/
theorem stats_bounds_witness :
    (1 : ℚ) ≤ 2 ∧ (2 : ℚ) ≤ 3 ∧ (2 : ℚ) = 3 - 1 ∧ (0 : ℚ) ≤ 2 :=
  stats_bounds [⟨1, 0⟩, ⟨3, 1⟩] ⟨2, 1, 3, 2, []⟩ analyzeData_example

/-- C6 (amended): analyzeData never faults on a nonempty buffer. -/
theorem analyzeData_ok_of_nonempty (samples : List Sample)
    (h : samples ≠ []) : (analyzeData samples).isOk = true := by
  obtain ⟨s0, rest, rfl⟩ := List.exists_cons_of_ne_nil h
  rw [analyzeData_cons]
  rfl

/-- Witness for C6 at a concrete one-sample buffer. -/
theorem analyzeData_ok_of_nonempty_witness :
    (analyzeData [⟨1, 0⟩]).isOk = true :=
  analyzeData_ok_of_nonempty [⟨1, 0⟩] (by simp)

/-- Counterexample to C6 as stated: on the empty buffer the JS reduce
with no initial value throws, so analyzeData is an error, not a value. -/
theorem analyzeData_empty_errors :
    analyzeData ([] : List Sample) =
      Except.error "Reduce of empty array with no initial value" := rfl

/-!  C5: the brightness extractor. -/

/-- The stride-4 summation loop over a flat RGBA array reads exactly the
red and green channel of every pixel. -/
lemma sumRG_flatten (ps : List Pixel) :
    sumRG (flattenPixels ps) = some (rgSum ps) := by
  induction ps with
  | nil => rfl
  | cons p rest ih =>
      show sumRG (p.r :: p.g :: p.b :: p.a :: flattenPixels rest) = _
      rw [sumRG, ih]
      simp [rgSum]

/-- The flat RGBA array of n pixels has 4n entries. -/
lemma flattenPixels_length (ps : List Pixel) :
    (flattenPixels ps).length = 4 * ps.length := by
  induction ps with
  | nil => rfl
  | cons p rest ih =>
      show (p.r :: p.g :: p.b :: p.a :: flattenPixels rest).length = _
      simp only [List.length_cons, ih, List.length_cons]
      ring

/-- C5: on a W x H RGBA buffer with at least one pixel whose channel
intensities lie in [0, 255], averageBrightness returns the sum of the red
and green channels divided by totalPixels * 2 * 255, a value in [0, 1]. -/
theorem averageBrightness_normalized (W H : ℕ) (ps : List Pixel)
    (_hWH : ps.length = W * H) (hpos : 1 ≤ ps.length)
    (hbound : ∀ p ∈ ps, 0 ≤ p.r ∧ p.r ≤ 255 ∧ 0 ≤ p.g ∧ p.g ≤ 255) :
    averageBrightness (flattenPixels ps) =
        some (rgSum ps / ((ps.length : ℚ) * 2 * 255)) ∧
      0 ≤ rgSum ps / ((ps.length : ℚ) * 2 * 255) ∧
      rgSum ps / ((ps.length : ℚ) * 2 * 255) ≤ 1 := by
  have hn : (0 : ℚ) < (ps.length : ℚ) := by exact_mod_cast hpos
  have hden : ((flattenPixels ps).length : ℚ) * (1 / 2) =
      2 * (ps.length : ℚ) := by
    rw [flattenPixels_length]
    push_cast
    ring
  have hne : ((flattenPixels ps).length : ℚ) * (1 / 2) ≠ 0 := by
    rw [hden]
    positivity
  have heq : averageBrightness (flattenPixels ps) =
      some (rgSum ps / ((ps.length : ℚ) * 2 * 255)) := by
    unfold averageBrightness
    rw [sumRG_flatten]
    simp only [Option.bind_eq_bind, Option.some_bind, jsDiv, if_neg hne,
      Option.map_some']
    rw [hden, div_div]
    congr 1
    ring
  refine ⟨heq, ?_, ?_⟩
  · apply div_nonneg
    · apply List.sum_nonneg
      intro x hx
      obtain ⟨p, hp, rfl⟩ := List.mem_map.mp hx
      have := hbound p hp
      linarith [this.1, this.2.2.1]
    · positivity
  · rw [div_le_one (by positivity)]
    have hle := sum_le_length_mul (ps.map fun p => p.r + p.g) 510
      (by
        intro x hx
        obtain ⟨p, hp, rfl⟩ := List.mem_map.mp hx
        have := hbound p hp
        linarith [this.2.1, this.2.2.2])
    rw [List.length_map] at hle
    unfold rgSum
    linarith

/-- Witness for C5 at a single saturated red-green pixel. -/
theorem averageBrightness_normalized_witness :
    averageBrightness (flattenPixels [⟨255, 255, 0, 0⟩]) =
        some (rgSum [⟨255, 255, 0, 0⟩] /
          ((([⟨255, 255, 0, 0⟩] : List Pixel).length : ℚ) * 2 * 255)) ∧
      0 ≤ rgSum [⟨255, 255, 0, 0⟩] /
          ((([⟨255, 255, 0, 0⟩] : List Pixel).length : ℚ) * 2 * 255) ∧
      rgSum [⟨255, 255, 0, 0⟩] /
          ((([⟨255, 255, 0, 0⟩] : List Pixel).length : ℚ) * 2 * 255) ≤ 1 :=
  averageBrightness_normalized 1 1 [⟨255, 255, 0, 0⟩] (by simp) (by simp)
    (by norm_num)

/-!  C4 and C8: the waveform renderer. -/

section Renderer

variable (xS xO mn mx mh lw : ℚ)

/-- The emitted point list is a sublist of the full indexed point list. -/
lemma drawLoop_sublist (l : List Sample) :
    ∀ (i : ℕ) (prev : Option ℚ),
      (drawLoop xS xO mn mx mh lw l i prev).Sublist
        (allPoints xS xO mn mx mh lw l i) := by
  induction l with
  | nil =>
      intro i prev
      simp [drawLoop, allPoints]
  | cons s rest ih =>
      intro i prev
      rw [drawLoop, allPoints]
      split
      · exact List.Sublist.cons₂ _ (ih (i + 1) _)
      · exact List.Sublist.cons _ (ih (i + 1) _)

/-- Every full point at start index i has x-coordinate xS * j + xO for
some index j in range. -/
lemma allPoints_mem (l : List Sample) :
    ∀ (i : ℕ) (p : Point), p ∈ allPoints xS xO mn mx mh lw l i →
      ∃ j, i ≤ j ∧ j < i + l.length ∧ p.x = xS * (j : ℚ) + xO := by
  induction l with
  | nil =>
      intro i p hp
      simp [allPoints] at hp
  | cons s rest ih =>
      intro i p hp
      rw [allPoints] at hp
      rcases List.mem_cons.mp hp with rfl | hp2
      · exact ⟨i, le_refl i, by simp, rfl⟩
      · obtain ⟨j, hij, hjl, hx⟩ := ih (i + 1) p hp2
        refine ⟨j, by omega, ?_, hx⟩
        simp only [List.length_cons]
        omega

/-- The full point list has non-decreasing x-coordinates when the x step
is nonnegative. -/
lemma allPoints_pairwise (hxS : 0 ≤ xS) (l : List Sample) :
    ∀ i : ℕ,
      (allPoints xS xO mn mx mh lw l i).Pairwise (fun p q => p.x ≤ q.x) := by
  induction l with
  | nil =>
      intro i
      simp [allPoints]
  | cons s rest ih =>
      intro i
      rw [allPoints]
      refine List.Pairwise.cons ?_ (ih (i + 1))
      intro q hq
      obtain ⟨j, hij, _, hx⟩ := allPoints_mem xS xO mn mx mh lw rest (i + 1) q hq
      rw [hx]
      simp only
      have hcast : (i : ℚ) ≤ (j : ℚ) := by
        exact_mod_cast (by omega : i ≤ j)
      have := mul_le_mul_of_nonneg_left hcast hxS
      linarith

/-- previousY after scanning t :: rest equals previousY after scanning
rest starting from the y of t. -/
lemma lastPrevY_cons (t : Sample) (rest : List Sample) (prev : Option ℚ) :
    lastPrevY mn mx mh lw (t :: rest) prev =
      lastPrevY mn mx mh lw rest (yValue mn mx mh lw t) := by
  cases rest with
  | nil => rfl
  | cons a as =>
      unfold lastPrevY
      rw [List.getLast?_cons_cons]
      cases h : (a :: as).getLast? with
      | none => simp at h
      | some b => rfl

/-- When the y of a final sample differs (in the JS sense) from the
previousY accumulated over the earlier samples, the final sample's point
is emitted and closes the point list. -/
lemma drawLoop_concat_emit (s : Sample) (l : List Sample) :
    ∀ (i : ℕ) (prev : Option ℚ),
      jsNe (yValue mn mx mh lw s) (lastPrevY mn mx mh lw l prev) = true →
      (drawLoop xS xO mn mx mh lw (l ++ [s]) i prev).getLast? =
        some ⟨xS * ((i + l.length : ℕ) : ℚ) + xO, yValue mn mx mh lw s⟩ := by
  induction l with
  | nil =>
      intro i prev hne
      rw [show lastPrevY mn mx mh lw [] prev = prev from rfl] at hne
      rw [List.nil_append, drawLoop, if_pos hne]
      simp [drawLoop]
  | cons t rest ih =>
      intro i prev hne
      rw [lastPrevY_cons] at hne
      have hlast := ih (i + 1) (yValue mn mx mh lw t) hne
      have harith : i + 1 + rest.length = i + (t :: rest).length := by
        simp only [List.length_cons]
        omega
      rw [List.cons_append, drawLoop]
      split
      · cases hL : drawLoop xS xO mn mx mh lw (rest ++ [s]) (i + 1)
            (yValue mn mx mh lw t) with
        | nil =>
            rw [hL] at hlast
            simp at hlast
        | cons a as =>
            rw [hL] at hlast
            rw [List.getLast?_cons_cons, hlast, harith]
      · rw [hlast, harith]

/-- When the y of a final sample equals (in the JS sense) the previousY
accumulated over the earlier samples, the final sample is skipped
entirely. -/
lemma drawLoop_concat_skip (s : Sample) (l : List Sample) :
    ∀ (i : ℕ) (prev : Option ℚ),
      jsNe (yValue mn mx mh lw s) (lastPrevY mn mx mh lw l prev) = false →
      drawLoop xS xO mn mx mh lw (l ++ [s]) i prev =
        drawLoop xS xO mn mx mh lw l i prev := by
  induction l with
  | nil =>
      intro i prev hne
      rw [show lastPrevY mn mx mh lw [] prev = prev from rfl] at hne
      simp [drawLoop, hne]
  | cons t rest ih =>
      intro i prev hne
      rw [lastPrevY_cons] at hne
      rw [List.cons_append, drawLoop, drawLoop,
        ih (i + 1) (yValue mn mx mh lw t) hne]

end Renderer

/-- getLast? of a nonempty replicate is the replicated element. -/
lemma getLast?_replicate_succ (n : ℕ) (x : Sample) :
    (List.replicate (n + 1) x).getLast? = some x := by
  induction n with
  | zero => rfl
  | succ m ih =>
      rw [List.replicate_succ, List.replicate_succ, List.getLast?_cons_cons,
        ← List.replicate_succ, ih]

/-- C8 (amended): every emitted point's x is xScale * i + xOffset for an
in-range index i, the emitted x-coordinates are non-decreasing for a
nonnegative surface width, and for a full buffer whose final sample is
actually emitted (its y differs, under the JS inequality where NaN
differs from everything, from the previous computed y), the final emitted
x is surfaceWidth - xScale. -/
theorem drawGraph_x_coords (samples : List Sample) (stats : AnalysisResult)
    (width height lineWidth : ℚ) (hw : 0 ≤ width) :
    (∀ p ∈ drawGraphPoints samples stats width height lineWidth,
        ∃ i, i < samples.length ∧
          p.x = width / (MAX_SAMPLES : ℚ) * (i : ℚ) +
            ((MAX_SAMPLES : ℚ) - (samples.length : ℚ)) *
              (width / (MAX_SAMPLES : ℚ))) ∧
      (drawGraphPoints samples stats width height lineWidth).Pairwise
        (fun p q => p.x ≤ q.x) ∧
      ∀ h : samples ≠ [],
        samples.length = MAX_SAMPLES →
        jsNe
            (yValue stats.min stats.max (height - lineWidth * 2) lineWidth
              (samples.getLast h))
            (lastPrevY stats.min stats.max (height - lineWidth * 2) lineWidth
              samples.dropLast (some 0)) = true →
        ((drawGraphPoints samples stats width height lineWidth).getLast?).map
            Point.x = some (width - width / (MAX_SAMPLES : ℚ)) := by
  have hxS : 0 ≤ width / (MAX_SAMPLES : ℚ) :=
    div_nonneg hw (by norm_num [MAX_SAMPLES])
  have hDG : drawGraphPoints samples stats width height lineWidth =
      drawLoop (width / (MAX_SAMPLES : ℚ))
        (((MAX_SAMPLES : ℚ) - (samples.length : ℚ)) * (width / (MAX_SAMPLES : ℚ)))
        stats.min stats.max (height - lineWidth * 2) lineWidth samples 0
        (some 0) := rfl
  refine ⟨?_, ?_, ?_⟩
  · intro p hp
    rw [hDG] at hp
    have hp2 := (drawLoop_sublist (width / (MAX_SAMPLES : ℚ))
      (((MAX_SAMPLES : ℚ) - (samples.length : ℚ)) * (width / (MAX_SAMPLES : ℚ)))
      stats.min stats.max (height - lineWidth * 2) lineWidth samples 0
      (some 0)).subset hp
    obtain ⟨j, _, hjlen, hx⟩ := allPoints_mem (width / (MAX_SAMPLES : ℚ))
      (((MAX_SAMPLES : ℚ) - (samples.length : ℚ)) * (width / (MAX_SAMPLES : ℚ)))
      stats.min stats.max (height - lineWidth * 2) lineWidth samples 0 p hp2
    exact ⟨j, by omega, hx⟩
  · rw [hDG]
    exact (allPoints_pairwise (width / (MAX_SAMPLES : ℚ))
      (((MAX_SAMPLES : ℚ) - (samples.length : ℚ)) * (width / (MAX_SAMPLES : ℚ)))
      stats.min stats.max (height - lineWidth * 2) lineWidth hxS samples
      0).sublist
      (drawLoop_sublist (width / (MAX_SAMPLES : ℚ))
        (((MAX_SAMPLES : ℚ) - (samples.length : ℚ)) *
          (width / (MAX_SAMPLES : ℚ)))
        stats.min stats.max (height - lineWidth * 2) lineWidth samples 0
        (some 0))
  · intro h hfull hne
    have hemit := drawLoop_concat_emit (width / (MAX_SAMPLES : ℚ))
      (((MAX_SAMPLES : ℚ) - (samples.length : ℚ)) * (width / (MAX_SAMPLES : ℚ)))
      stats.min stats.max (height - lineWidth * 2) lineWidth
      (samples.getLast h) samples.dropLast 0 (some 0) hne
    rw [List.dropLast_append_getLast h] at hemit
    rw [hDG, hemit, Option.map_some']
    have hlen : samples.dropLast.length = MAX_SAMPLES - 1 := by
      rw [List.length_dropLast, hfull]
    rw [hlen, hfull]
    norm_num [MAX_SAMPLES]
    ring

/-- Witness for C8: a full buffer of 299 zero samples and one distinct
final sample; the final sample is emitted at x = width - xScale. -/
theorem drawGraph_x_coords_witness :
    ((drawGraphPoints (List.replicate 299 ⟨0, 0⟩ ++ [⟨1, 0⟩])
          ⟨1 / 300, 0, 1, 1, []⟩ 300 100 6).getLast?).map Point.x =
      some (300 - 300 / (MAX_SAMPLES : ℚ)) := by
  refine (drawGraph_x_coords (List.replicate 299 ⟨0, 0⟩ ++ [⟨1, 0⟩])
      ⟨1 / 300, 0, 1, 1, []⟩ 300 100 6 (by norm_num)).2.2 (by simp) ?_ ?_
  · simp [MAX_SAMPLES]
  · rw [List.getLast_concat _, List.dropLast_concat]
    have hprev : lastPrevY (0 : ℚ) 1 (100 - 6 * 2) 6
        (List.replicate 299 ⟨0, 0⟩) (some 0) =
        yValue (0 : ℚ) 1 (100 - 6 * 2) 6 ⟨0, 0⟩ := by
      unfold lastPrevY
      rw [getLast?_replicate_succ 298]
    simp only
    rw [hprev]
    norm_num [yValue, jsDiv, jsNe]

/-- Counterexample to C8 as stated: a full buffer whose last two samples
share a y-coordinate; the final sample is skipped, so the final emitted x
is width - 2 * xScale, not width - xScale. -/
theorem drawGraph_last_skipped :
    cexBuffer.length = MAX_SAMPLES ∧
      ((drawGraphPoints cexBuffer ⟨1 / 150, 0, 1, 1, []⟩
            300 100 6).getLast?).map Point.x = some 298 ∧
      (298 : ℚ) ≠ 300 - 300 / (MAX_SAMPLES : ℚ) := by
  refine ⟨by simp [cexBuffer, MAX_SAMPLES], ?_, by norm_num [MAX_SAMPLES]⟩
  have hsplit : cexBuffer =
      (List.replicate 298 (⟨0, 0⟩ : Sample) ++ ([⟨1, 0⟩] : List Sample)) ++
        ([⟨1, 0⟩] : List Sample) := by
    simp [cexBuffer]
  have hDG : drawGraphPoints cexBuffer ⟨1 / 150, 0, 1, 1, []⟩ 300 100 6 =
      drawLoop (300 / (MAX_SAMPLES : ℚ)) cexXO 0 1 (100 - 6 * 2) 6
        cexBuffer 0 (some 0) := rfl
  have hskip := drawLoop_concat_skip (300 / (MAX_SAMPLES : ℚ)) cexXO
    0 1 (100 - 6 * 2) 6 (⟨1, 0⟩ : Sample)
    (List.replicate 298 (⟨0, 0⟩ : Sample) ++ ([⟨1, 0⟩] : List Sample)) 0
    (some 0)
    (by
      have hprev : lastPrevY (0 : ℚ) 1 (100 - 6 * 2) 6
          (List.replicate 298 (⟨0, 0⟩ : Sample) ++ ([⟨1, 0⟩] : List Sample))
          (some 0) =
          yValue (0 : ℚ) 1 (100 - 6 * 2) 6 ⟨1, 0⟩ := by
        unfold lastPrevY
        rw [List.getLast?_concat]
      rw [hprev]
      norm_num [yValue, jsDiv, jsNe])
  have hemit := drawLoop_concat_emit (300 / (MAX_SAMPLES : ℚ)) cexXO
    0 1 (100 - 6 * 2) 6 (⟨1, 0⟩ : Sample)
    (List.replicate 298 (⟨0, 0⟩ : Sample)) 0 (some 0)
    (by
      have hprev : lastPrevY (0 : ℚ) 1 (100 - 6 * 2) 6
          (List.replicate 298 (⟨0, 0⟩ : Sample)) (some 0) =
          yValue (0 : ℚ) 1 (100 - 6 * 2) 6 ⟨0, 0⟩ := by
        unfold lastPrevY
        rw [getLast?_replicate_succ 297]
      rw [hprev]
      norm_num [yValue, jsDiv, jsNe])
  rw [hDG, hsplit, hskip, hemit, Option.map_some']
  norm_num [cexXO, cexBuffer, MAX_SAMPLES]

/-- C4 evaluation at the failing input: with a flat nonzero buffer the
pipeline stats have min = max, and every y the renderer emits is the
non-finite JS value NaN (0/0), not the inset constant. -/
theorem flat_signal_emits_nan :
    analyzeData [⟨1 / 2, 0⟩, ⟨1 / 2, 1⟩] =
        Except.ok ⟨1 / 2, 1 / 2, 1 / 2, 0, []⟩ ∧
      (drawGraphPoints [⟨1 / 2, 0⟩, ⟨1 / 2, 1⟩] ⟨1 / 2, 1 / 2, 1 / 2, 0, []⟩
          300 100 6).map Point.y = [none, none] := by
  constructor
  · have havg : (([⟨1 / 2, 1⟩] : List Sample).map Sample.value).foldl (· + ·)
          ((⟨1 / 2, 0⟩ : Sample)).value /
          ((([⟨1 / 2, 0⟩, ⟨1 / 2, 1⟩] : List Sample).length : ℚ)) = 1 / 2 := by
      norm_num [List.foldl]
    rw [analyzeData_cons, havg]
    simp only [Except.ok.injEq, AnalysisResult.mk.injEq]
    norm_num [List.foldl, getAverageCrossings, gacLoop]
  · norm_num [drawGraphPoints, drawLoop, yValue, jsDiv, jsNe]

end HeartRateMonitor
